import Mathlib

/-!
Verification of the Sinkhorn / Wasserstein clustering core of
`protonets/models/wasserstein.py`.

Tensors are embedded over the reals: a vector of length `n` is `Fin n → ℝ`,
a 2-D tensor is `Matrix (Fin n) (Fin m) ℝ`.  Sizes that the source requires
to be nonempty (every axis a log-sum-exp reduces over) are written `n+1`.
Fallible paths (a Python `NameError` when a loop-local variable is read
after zero loop passes, a failed `assert`) are modelled with `Option`:
`none` is the error outcome.  Sources of randomness (`torch.randn`,
`np.random.choice`) are passed in as explicit parameters.
-/

namespace Wasserstein

noncomputable section

open scoped BigOperators

/-! ### log-sum-exp (`log_sum_exp`, `naive_log_sum_exp`, lines 50-58) -/

/-- The per-slice maximum: `u.max(dim=dim, keepdim=True)` restricted to one
slice of the reduced axis.  (Summing the kept singleton axis, as
`u_max.sum(dim)` does in the source, returns this same value.) -/
def sliceMax {k : ℕ} (v : Fin (k + 1) → ℝ) : ℝ :=
  Finset.univ.sup' Finset.univ_nonempty v

/-- One slice of `log_sum_exp(u, dim)` (source lines 50-54):
`torch.log(torch.exp(u - u_max).sum(dim)) + u_max.sum(dim)`. -/
def log_sum_exp {k : ℕ} (v : Fin (k + 1) → ℝ) : ℝ :=
  Real.log (∑ j, Real.exp (v j - sliceMax v)) + sliceMax v

/-- One slice of `naive_log_sum_exp(u, dim)` (source lines 57-58):
`torch.log(torch.sum(torch.exp(u), dim))`. -/
def naive_log_sum_exp {k : ℕ} (v : Fin (k + 1) → ℝ) : ℝ :=
  Real.log (∑ j, Real.exp (v j))

/-- Reduction `log_sum_exp(u, dim=1)` on a 2-D tensor: the reduction applied to each row. -/
def log_sum_exp_dim1 {a b : ℕ} (u : Matrix (Fin (a + 1)) (Fin (b + 1)) ℝ) :
    Fin (a + 1) → ℝ :=
  fun i => log_sum_exp (fun j => u i j)

/-- Reduction `log_sum_exp(u, dim=0)` on a 2-D tensor: the reduction applied to each column. -/
def log_sum_exp_dim0 {a b : ℕ} (u : Matrix (Fin (a + 1)) (Fin (b + 1)) ℝ) :
    Fin (b + 1) → ℝ :=
  fun j => log_sum_exp (fun i => u i j)

/-- Reduction `naive_log_sum_exp(u, dim=1)` on a 2-D tensor. -/
def naive_log_sum_exp_dim1 {a b : ℕ} (u : Matrix (Fin (a + 1)) (Fin (b + 1)) ℝ) :
    Fin (a + 1) → ℝ :=
  fun i => naive_log_sum_exp (fun j => u i j)

/-- Reduction `naive_log_sum_exp(u, dim=0)` on a 2-D tensor. -/
def naive_log_sum_exp_dim0 {a b : ℕ} (u : Matrix (Fin (a + 1)) (Fin (b + 1)) ℝ) :
    Fin (b + 1) → ℝ :=
  fun j => naive_log_sum_exp (fun i => u i j)

lemma sum_exp_pos {k : ℕ} (v : Fin (k + 1) → ℝ) :
    0 < ∑ j, Real.exp (v j) :=
  Finset.sum_pos (fun j _ => Real.exp_pos (v j)) Finset.univ_nonempty

/-- The max-shift in `log_sum_exp` is an exact identity. -/
lemma log_sum_exp_eq_naive {k : ℕ} (v : Fin (k + 1) → ℝ) :
    log_sum_exp v = naive_log_sum_exp v := by
  unfold log_sum_exp naive_log_sum_exp
  have hshift : ∀ j : Fin (k + 1),
      Real.exp (v j - sliceMax v) = Real.exp (v j) / Real.exp (sliceMax v) := by
    intro j; rw [Real.exp_sub]
  rw [Finset.sum_congr rfl (fun j _ => hshift j), ← Finset.sum_div,
    Real.log_div (ne_of_gt (sum_exp_pos v)) (ne_of_gt (Real.exp_pos _)),
    Real.log_exp]
  ring

/-- Exponentiating `log_sum_exp` recovers the plain sum of exponentials. -/
lemma exp_log_sum_exp {k : ℕ} (v : Fin (k + 1) → ℝ) :
    Real.exp (log_sum_exp v) = ∑ j, Real.exp (v j) := by
  rw [log_sum_exp_eq_naive, naive_log_sum_exp, Real.exp_log (sum_exp_pos v)]

/-- C1: `log_sum_exp(u, dim)` equals `log(sum(exp(u), dim))` exactly, for every
2-D input tensor and both reduction axes: the max-shift trick is an exact
identity, not an approximation. -/
theorem log_sum_exp_exact :
    ∀ (a b : ℕ) (u : Matrix (Fin (a + 1)) (Fin (b + 1)) ℝ),
      log_sum_exp_dim1 u = naive_log_sum_exp_dim1 u ∧
      log_sum_exp_dim0 u = naive_log_sum_exp_dim0 u := by
  intro a b u
  constructor
  · funext i; exact log_sum_exp_eq_naive _
  · funext j; exact log_sum_exp_eq_naive _

/-! ### Naive Sinkhorn solver (`compute_sinkhorn`, lines 6-47) -/

/-- Uniform histogram default: `torch.ones(n) / n`. -/
def uniformDist (n : ℕ) : Fin n → ℝ := fun _ => 1 / (n : ℝ)

/-- Kernel `K = torch.exp(-regularization * m)` (line 22). -/
def Kmatrix {n m : ℕ} (reg : ℝ) (M : Matrix (Fin n) (Fin m) ℝ) :
    Matrix (Fin n) (Fin m) ℝ :=
  fun i j => Real.exp (-reg * M i j)

/-- Row update `u = r / torch.matmul(K, v)` (line 33). -/
def sinkhornU {n m : ℕ} (K : Matrix (Fin n) (Fin m) ℝ) (r : Fin n → ℝ)
    (v : Fin m → ℝ) : Fin n → ℝ :=
  fun i => r i / ∑ j, K i j * v j

/-- Column update `v = c / torch.matmul(u, K)` (line 36). -/
def sinkhornV {n m : ℕ} (K : Matrix (Fin n) (Fin m) ℝ) (c : Fin m → ℝ)
    (u : Fin n → ℝ) : Fin m → ℝ :=
  fun j => c j / ∑ i, u i * K i j

/-- The main loop (lines 25-36).  The first component is the last value bound
to `u`: it is `none` when the loop ran zero times, since `u` is only assigned
inside the loop body (reading it then raises a Python `NameError`). -/
def sinkhornLoop {n m : ℕ} (K : Matrix (Fin n) (Fin m) ℝ) (r : Fin n → ℝ)
    (c : Fin m → ℝ) : ℕ → Option (Fin n → ℝ) × (Fin m → ℝ)
  | 0 => (none, fun _ => 1)
  | t + 1 =>
    let v := (sinkhornLoop K r c t).2
    let u := sinkhornU K r v
    (some u, sinkhornV K c u)

/-- Result record of `compute_sinkhorn`: `return dst, P, u, v` (line 47). -/
structure SinkhornResult (n m : ℕ) where
  dst : ℝ
  P : Matrix (Fin n) (Fin m) ℝ
  u : Fin n → ℝ
  v : Fin m → ℝ

/-- Function `compute_sinkhorn(m, r=None, c=None, regularization=100., iterations=40)`
(lines 6-47).  `none` models the `NameError` raised at line 44 when
`iterations = 0` (the loop-local `u` was never assigned). -/
def compute_sinkhorn {n m : ℕ} (M : Matrix (Fin n) (Fin m) ℝ)
    (r? : Option (Fin n → ℝ)) (c? : Option (Fin m → ℝ))
    (reg : ℝ) (iters : ℕ) : Option (SinkhornResult n m) :=
  let r := r?.getD (uniformDist n)
  let c := c?.getD (uniformDist m)
  let K := Kmatrix reg M
  match sinkhornLoop K r c iters with
  | (none, _) => none
  | (some u, v) =>
    let P : Matrix (Fin n) (Fin m) ℝ := fun i j => u i * K i j * v j
    some ⟨∑ i, ∑ j, P i j * M i j, P, u, v⟩

/-- Wrapper for `compute_sinkhorn` at its default arguments `regularization=100.,
iterations=40`. -/
def compute_sinkhorn_default {n m : ℕ} (M : Matrix (Fin n) (Fin m) ℝ)
    (r? : Option (Fin n → ℝ)) (c? : Option (Fin m → ℝ)) :
    Option (SinkhornResult n m) :=
  compute_sinkhorn M r? c? 100 40

/-! ### Log-stabilized Sinkhorn solver (`compute_sinkhorn_stable`, lines 61-90) -/

/-- Assignment `log_K = -regularization * m` (line 75). -/
def logKmatrix {n m : ℕ} (reg : ℝ) (M : Matrix (Fin n) (Fin m) ℝ) :
    Matrix (Fin n) (Fin m) ℝ :=
  fun i j => -reg * M i j

/-- Elementwise logarithm of a marginal: `torch.log(r)` (lines 67-68). -/
def logOf {n : ℕ} (r : Fin n → ℝ) : Fin n → ℝ :=
  fun i => Real.log (r i)

/-- Update `log_u = log_r - log_sum_exp(log_K + log_v[None, :], dim=1)` (line 80). -/
def stableStepU {n m : ℕ} (logK : Matrix (Fin (n + 1)) (Fin (m + 1)) ℝ)
    (log_r : Fin (n + 1) → ℝ) (log_v : Fin (m + 1) → ℝ) : Fin (n + 1) → ℝ :=
  fun i => log_r i - log_sum_exp (fun j => logK i j + log_v j)

/-- Update `log_v = log_c - log_sum_exp(log_u[:, None] + log_K, dim=0)` (line 83). -/
def stableStepV {n m : ℕ} (logK : Matrix (Fin (n + 1)) (Fin (m + 1)) ℝ)
    (log_c : Fin (m + 1) → ℝ) (log_u : Fin (n + 1) → ℝ) : Fin (m + 1) → ℝ :=
  fun j => log_c j - log_sum_exp (fun i => log_u i + logK i j)

/-- The main loop of the stable solver (lines 78-83); as in `sinkhornLoop`,
the first component is `none` when the loop ran zero times and `log_u` was
never assigned. -/
def sinkhornStableLoop {n m : ℕ} (logK : Matrix (Fin (n + 1)) (Fin (m + 1)) ℝ)
    (log_r : Fin (n + 1) → ℝ) (log_c : Fin (m + 1) → ℝ)
    (log_v0 : Fin (m + 1) → ℝ) : ℕ → Option (Fin (n + 1) → ℝ) × (Fin (m + 1) → ℝ)
  | 0 => (none, log_v0)
  | t + 1 =>
    let lv := (sinkhornStableLoop logK log_r log_c log_v0 t).2
    let lu := stableStepU logK log_r lv
    (some lu, stableStepV logK log_c lu)

/-- Result record of `compute_sinkhorn_stable`:
`return dst, P, log_P, log_u, log_v` (line 90). -/
structure StableResult (n m : ℕ) where
  dst : ℝ
  P : Matrix (Fin n) (Fin m) ℝ
  log_P : Matrix (Fin n) (Fin m) ℝ
  log_u : Fin n → ℝ
  log_v : Fin m → ℝ

/-- Function `compute_sinkhorn_stable(m, r=None, c=None, log_v=None,
regularization=100., iterations=40)` (lines 61-90).  `none` models the
`NameError` raised at line 86 when `iterations = 0` (the loop-local `log_u`
was never assigned). -/
def compute_sinkhorn_stable {n m : ℕ} (M : Matrix (Fin (n + 1)) (Fin (m + 1)) ℝ)
    (r? : Option (Fin (n + 1) → ℝ)) (c? : Option (Fin (m + 1) → ℝ))
    (log_v? : Option (Fin (m + 1) → ℝ)) (reg : ℝ) (iters : ℕ) :
    Option (StableResult (n + 1) (m + 1)) :=
  let r := r?.getD (uniformDist (n + 1))
  let c := c?.getD (uniformDist (m + 1))
  let log_r := logOf r
  let log_c := logOf c
  let log_v0 := log_v?.getD (fun _ => 0)
  let logK := logKmatrix reg M
  match sinkhornStableLoop logK log_r log_c log_v0 iters with
  | (none, _) => none
  | (some log_u, log_v) =>
    let log_P : Matrix (Fin (n + 1)) (Fin (m + 1)) ℝ :=
      fun i j => log_u i + logK i j + log_v j
    let P : Matrix (Fin (n + 1)) (Fin (m + 1)) ℝ :=
      fun i j => Real.exp (log_P i j)
    some ⟨∑ i, ∑ j, P i j * M i j, P, log_P, log_u, log_v⟩

/-- Wrapper for `compute_sinkhorn_stable` at its default arguments `regularization=100.,
iterations=40`. -/
def compute_sinkhorn_stable_default {n m : ℕ}
    (M : Matrix (Fin (n + 1)) (Fin (m + 1)) ℝ)
    (r? : Option (Fin (n + 1) → ℝ)) (c? : Option (Fin (m + 1) → ℝ))
    (log_v? : Option (Fin (m + 1) → ℝ)) : Option (StableResult (n + 1) (m + 1)) :=
  compute_sinkhorn_stable M r? c? log_v? 100 40

/-! ### Spec-side formulation of the naive solver (for claim C4) -/

/-- Modelled from the spec: the loop of section 4.2, "Initialize dual
`v = ones(m)`.  Repeat T times: `u = r / (K·v)`, `v = c / (u·K)`", written
with matrix-vector products and pointwise vector division.  As in the code,
`u` only exists once the loop has run at least once. -/
def sinkhornSpecLoop {n m : ℕ} (K : Matrix (Fin n) (Fin m) ℝ) (r : Fin n → ℝ)
    (c : Fin m → ℝ) : ℕ → Option (Fin n → ℝ) × (Fin m → ℝ)
  | 0 => (none, fun _ => 1)
  | t + 1 =>
    let v := (sinkhornSpecLoop K r c t).2
    let u := r / K.mulVec v
    (some u, c / Matrix.vecMul u K)

/-- Modelled from the spec (section 4.2): "form kernel `K = exp(-λ·M)` ...
Output: transport plan `P = diag(u)·K·diag(v)`, total transport cost
`= sum(P⊙M)`, plus final `u`, `v`", with marginals defaulting to the uniform
histograms `1/n` and `1/m` when not supplied. -/
def compute_sinkhorn_spec {n m : ℕ} (M : Matrix (Fin n) (Fin m) ℝ)
    (r? : Option (Fin n → ℝ)) (c? : Option (Fin m → ℝ))
    (reg : ℝ) (iters : ℕ) : Option (SinkhornResult n m) :=
  let r := r?.getD (fun _ => 1 / (n : ℝ))
  let c := c?.getD (fun _ => 1 / (m : ℝ))
  let K : Matrix (Fin n) (Fin m) ℝ := fun i j => Real.exp (-(reg * M i j))
  match sinkhornSpecLoop K r c iters with
  | (none, _) => none
  | (some u, v) =>
    let P := Matrix.diagonal u * K * Matrix.diagonal v
    some ⟨∑ i, ∑ j, P i j * M i j, P, u, v⟩

lemma sinkhornU_eq_spec {n m : ℕ} (K : Matrix (Fin n) (Fin m) ℝ)
    (r : Fin n → ℝ) (v : Fin m → ℝ) :
    sinkhornU K r v = r / K.mulVec v := by
  funext i
  simp [sinkhornU, Matrix.mulVec, Matrix.dotProduct]

lemma sinkhornV_eq_spec {n m : ℕ} (K : Matrix (Fin n) (Fin m) ℝ)
    (c : Fin m → ℝ) (u : Fin n → ℝ) :
    sinkhornV K c u = c / Matrix.vecMul u K := by
  funext j
  simp [sinkhornV, Matrix.vecMul, Matrix.dotProduct]

lemma sinkhornLoop_eq_spec {n m : ℕ} (K : Matrix (Fin n) (Fin m) ℝ)
    (r : Fin n → ℝ) (c : Fin m → ℝ) (t : ℕ) :
    sinkhornLoop K r c t = sinkhornSpecLoop K r c t := by
  induction t with
  | zero => rfl
  | succ t ih =>
    rw [sinkhornLoop, sinkhornSpecLoop, ih, sinkhornU_eq_spec, sinkhornV_eq_spec]

lemma diagonal_mul_diagonal_apply {n m : ℕ} (K : Matrix (Fin n) (Fin m) ℝ)
    (u : Fin n → ℝ) (v : Fin m → ℝ) (i : Fin n) (j : Fin m) :
    (Matrix.diagonal u * K * Matrix.diagonal v) i j = u i * K i j * v j := by
  rw [Matrix.mul_diagonal, Matrix.diagonal_mul]

/-- C4: `compute_sinkhorn` implements exactly the naive Sinkhorn-Knopp
algorithm of the spec (kernel `K = exp(-λ·M)`, `v` initialized to ones,
`T` alternating updates `u = r/(K·v)`, `v = c/(u·K)`, plan
`P = diag(u)·K·diag(v)`, cost `sum(P⊙M)`, final `u`, `v`, uniform default
marginals, no early exit), including at the default arguments
`λ = 100`, `T = 40`. -/
theorem compute_sinkhorn_matches_spec :
    ∀ (n m : ℕ) (M : Matrix (Fin n) (Fin m) ℝ)
      (r? : Option (Fin n → ℝ)) (c? : Option (Fin m → ℝ)) (reg : ℝ) (iters : ℕ),
      compute_sinkhorn M r? c? reg iters = compute_sinkhorn_spec M r? c? reg iters ∧
      compute_sinkhorn_default M r? c? = compute_sinkhorn_spec M r? c? 100 40 := by
  have key : ∀ (n m : ℕ) (M : Matrix (Fin n) (Fin m) ℝ)
      (r? : Option (Fin n → ℝ)) (c? : Option (Fin m → ℝ)) (reg : ℝ) (iters : ℕ),
      compute_sinkhorn M r? c? reg iters = compute_sinkhorn_spec M r? c? reg iters := by
    intro n m M r? c? reg iters
    have hK : Kmatrix reg M = fun i j => Real.exp (-(reg * M i j)) := by
      funext i j; rw [Kmatrix, neg_mul]
    have huni : ∀ k : ℕ, uniformDist k = fun _ : Fin k => 1 / (k : ℝ) :=
      fun k => rfl
    simp only [compute_sinkhorn, compute_sinkhorn_spec, huni, hK,
      sinkhornLoop_eq_spec]
    set K' : Matrix (Fin n) (Fin m) ℝ := fun i j => Real.exp (-(reg * M i j))
    cases h : sinkhornSpecLoop K'
        (r?.getD fun _ => 1 / (n : ℝ)) (c?.getD fun _ => 1 / (m : ℝ)) iters with
    | mk ou v =>
      cases ou with
      | none => rfl
      | some u =>
        have hP : (fun i j => u i * K' i j * v j)
            = Matrix.diagonal u * K' * Matrix.diagonal v := by
          funext i j; rw [diagonal_mul_diagonal_apply]
        dsimp only
        rw [← hP]
  intro n m M r? c? reg iters
  exact ⟨key n m M r? c? reg iters, key n m M r? c? 100 40⟩

/-! ### The log-domain solver refines the naive solver (claim C2) -/

lemma exp_stableStepU {n m : ℕ} (reg : ℝ) (M : Matrix (Fin (n + 1)) (Fin (m + 1)) ℝ)
    (r : Fin (n + 1) → ℝ) (lv : Fin (m + 1) → ℝ) (hr : ∀ i, 0 < r i) (i : Fin (n + 1)) :
    Real.exp (stableStepU (logKmatrix reg M) (logOf r) lv i)
      = sinkhornU (Kmatrix reg M) r (fun j => Real.exp (lv j)) i := by
  unfold stableStepU sinkhornU logOf
  rw [Real.exp_sub, Real.exp_log (hr i), exp_log_sum_exp]
  congr 1
  refine Finset.sum_congr rfl (fun j _ => ?_)
  rw [Real.exp_add]
  rfl

lemma exp_stableStepV {n m : ℕ} (reg : ℝ) (M : Matrix (Fin (n + 1)) (Fin (m + 1)) ℝ)
    (c : Fin (m + 1) → ℝ) (lu : Fin (n + 1) → ℝ) (hc : ∀ j, 0 < c j) (j : Fin (m + 1)) :
    Real.exp (stableStepV (logKmatrix reg M) (logOf c) lu j)
      = sinkhornV (Kmatrix reg M) c (fun i => Real.exp (lu i)) j := by
  unfold stableStepV sinkhornV logOf
  rw [Real.exp_sub, Real.exp_log (hc j), exp_log_sum_exp]
  congr 1
  refine Finset.sum_congr rfl (fun i _ => ?_)
  rw [Real.exp_add]
  rfl

/-- In exact arithmetic the log-domain loop state is the elementwise
exponential of the linear-domain loop state, at every iteration count. -/
lemma stable_loop_exp_eq {n m : ℕ} (M : Matrix (Fin (n + 1)) (Fin (m + 1)) ℝ)
    (r : Fin (n + 1) → ℝ) (c : Fin (m + 1) → ℝ) (reg : ℝ)
    (hr : ∀ i, 0 < r i) (hc : ∀ j, 0 < c j) (t : ℕ) :
    (fun j => Real.exp
        ((sinkhornStableLoop (logKmatrix reg M) (logOf r) (logOf c) (fun _ => 0) t).2 j))
      = (sinkhornLoop (Kmatrix reg M) r c t).2 ∧
    ((sinkhornStableLoop (logKmatrix reg M) (logOf r) (logOf c) (fun _ => 0) t).1.map
        (fun lu => (fun i => Real.exp (lu i))))
      = (sinkhornLoop (Kmatrix reg M) r c t).1 := by
  induction t with
  | zero =>
    constructor
    · funext j
      simp [sinkhornStableLoop, sinkhornLoop, Real.exp_zero]
    · rfl
  | succ t ih =>
    obtain ⟨ihv, ihu⟩ := ih
    have hu : (fun i => Real.exp (stableStepU (logKmatrix reg M) (logOf r)
        ((sinkhornStableLoop (logKmatrix reg M) (logOf r) (logOf c) (fun _ => 0) t).2) i))
        = sinkhornU (Kmatrix reg M) r ((sinkhornLoop (Kmatrix reg M) r c t).2) := by
      funext i
      rw [exp_stableStepU reg M r _ hr i, ← ihv]
    constructor
    · funext j
      rw [sinkhornStableLoop, sinkhornLoop]
      dsimp only
      rw [exp_stableStepV reg M c _ hc j, hu]
    · rw [sinkhornStableLoop, sinkhornLoop]
      exact congrArg some hu

/-- C2: with strictly positive marginals, `compute_sinkhorn_stable` returns
(in exact real arithmetic) exactly the same transport cost and transport
plan as `compute_sinkhorn`, for every cost matrix, regularization and
iteration count: the log-domain solver is a refinement of the linear-domain
solver. -/
theorem sinkhorn_stable_refines_naive {n m : ℕ}
    (M : Matrix (Fin (n + 1)) (Fin (m + 1)) ℝ)
    (r? : Option (Fin (n + 1) → ℝ)) (c? : Option (Fin (m + 1) → ℝ))
    (reg : ℝ) (T : ℕ)
    (hr : ∀ i, 0 < (r?.getD (uniformDist (n + 1))) i)
    (hc : ∀ j, 0 < (c?.getD (uniformDist (m + 1))) j) :
    (compute_sinkhorn_stable M r? c? none reg T).map (fun res => (res.dst, res.P))
      = (compute_sinkhorn M r? c? reg T).map (fun res => (res.dst, res.P)) := by
  obtain ⟨hv, hu⟩ := stable_loop_exp_eq M (r?.getD (uniformDist (n + 1)))
    (c?.getD (uniformDist (m + 1))) reg hr hc T
  simp only [compute_sinkhorn_stable, compute_sinkhorn, Option.getD_none]
  cases hsl : sinkhornStableLoop (logKmatrix reg M)
      (logOf (r?.getD (uniformDist (n + 1)))) (logOf (c?.getD (uniformDist (m + 1))))
      (fun _ => 0) T with
  | mk olu lv =>
    cases hl : sinkhornLoop (Kmatrix reg M) (r?.getD (uniformDist (n + 1)))
        (c?.getD (uniformDist (m + 1))) T with
    | mk ou v =>
      rw [hsl, hl] at hv hu
      cases olu with
      | none =>
        cases ou with
        | none => rfl
        | some u => exact absurd hu (by simp)
      | some lu =>
        cases ou with
        | none => exact absurd hu (by simp)
        | some u =>
          have hu' : (fun i => Real.exp (lu i)) = u := Option.some.inj hu
          have hv' : (fun j => Real.exp (lv j)) = v := hv
          dsimp only
          have hP : (fun i j => Real.exp
              (lu i + logKmatrix reg M i j + lv j))
              = (fun i j => u i * Kmatrix reg M i j * v j) := by
            funext i j
            rw [Real.exp_add, Real.exp_add, ← hu', ← hv']
            rfl
          rw [hP]
          have hdst : (∑ x, ∑ y, Real.exp (lu x + logKmatrix reg M x y + lv y) * M x y)
              = ∑ x, ∑ y, u x * Kmatrix reg M x y * v y * M x y := by
            refine Finset.sum_congr rfl (fun x _ => Finset.sum_congr rfl (fun y _ => ?_))
            rw [congrFun (congrFun hP x) y]
          rw [hdst]
          rfl

/-! ### Closed forms of the solver outputs after at least one pass -/

/-- The value bound to `u` when `compute_sinkhorn` has run `t + 1` passes. -/
def naiveUAt {n m : ℕ} (M : Matrix (Fin n) (Fin m) ℝ) (r? : Option (Fin n → ℝ))
    (c? : Option (Fin m → ℝ)) (reg : ℝ) (t : ℕ) : Fin n → ℝ :=
  sinkhornU (Kmatrix reg M) (r?.getD (uniformDist n))
    ((sinkhornLoop (Kmatrix reg M) (r?.getD (uniformDist n))
      (c?.getD (uniformDist m)) t).2)

/-- The value bound to `v` when `compute_sinkhorn` has run `t + 1` passes. -/
def naiveVAt {n m : ℕ} (M : Matrix (Fin n) (Fin m) ℝ) (r? : Option (Fin n → ℝ))
    (c? : Option (Fin m → ℝ)) (reg : ℝ) (t : ℕ) : Fin m → ℝ :=
  sinkhornV (Kmatrix reg M) (c?.getD (uniformDist m)) (naiveUAt M r? c? reg t)

lemma compute_sinkhorn_zero {n m : ℕ} (M : Matrix (Fin n) (Fin m) ℝ)
    (r? : Option (Fin n → ℝ)) (c? : Option (Fin m → ℝ)) (reg : ℝ) :
    compute_sinkhorn M r? c? reg 0 = none := rfl

lemma compute_sinkhorn_succ {n m : ℕ} (M : Matrix (Fin n) (Fin m) ℝ)
    (r? : Option (Fin n → ℝ)) (c? : Option (Fin m → ℝ)) (reg : ℝ) (t : ℕ) :
    compute_sinkhorn M r? c? reg (t + 1) =
      some ⟨∑ i, ∑ j, (naiveUAt M r? c? reg t i * Kmatrix reg M i j *
              naiveVAt M r? c? reg t j) * M i j,
            fun i j => naiveUAt M r? c? reg t i * Kmatrix reg M i j *
              naiveVAt M r? c? reg t j,
            naiveUAt M r? c? reg t, naiveVAt M r? c? reg t⟩ := rfl

/-- The value bound to `log_u` when `compute_sinkhorn_stable` has run
`t + 1` passes. -/
def stableLUAt {n m : ℕ} (M : Matrix (Fin (n + 1)) (Fin (m + 1)) ℝ)
    (r? : Option (Fin (n + 1) → ℝ)) (c? : Option (Fin (m + 1) → ℝ))
    (lv? : Option (Fin (m + 1) → ℝ)) (reg : ℝ) (t : ℕ) : Fin (n + 1) → ℝ :=
  stableStepU (logKmatrix reg M) (logOf (r?.getD (uniformDist (n + 1))))
    ((sinkhornStableLoop (logKmatrix reg M) (logOf (r?.getD (uniformDist (n + 1))))
      (logOf (c?.getD (uniformDist (m + 1)))) (lv?.getD (fun _ => 0)) t).2)

/-- The value bound to `log_v` when `compute_sinkhorn_stable` has run
`t + 1` passes. -/
def stableLVAt {n m : ℕ} (M : Matrix (Fin (n + 1)) (Fin (m + 1)) ℝ)
    (r? : Option (Fin (n + 1) → ℝ)) (c? : Option (Fin (m + 1) → ℝ))
    (lv? : Option (Fin (m + 1) → ℝ)) (reg : ℝ) (t : ℕ) : Fin (m + 1) → ℝ :=
  stableStepV (logKmatrix reg M) (logOf (c?.getD (uniformDist (m + 1))))
    (stableLUAt M r? c? lv? reg t)

lemma compute_sinkhorn_stable_zero {n m : ℕ}
    (M : Matrix (Fin (n + 1)) (Fin (m + 1)) ℝ)
    (r? : Option (Fin (n + 1) → ℝ)) (c? : Option (Fin (m + 1) → ℝ))
    (lv? : Option (Fin (m + 1) → ℝ)) (reg : ℝ) :
    compute_sinkhorn_stable M r? c? lv? reg 0 = none := rfl

lemma compute_sinkhorn_stable_succ {n m : ℕ}
    (M : Matrix (Fin (n + 1)) (Fin (m + 1)) ℝ)
    (r? : Option (Fin (n + 1) → ℝ)) (c? : Option (Fin (m + 1) → ℝ))
    (lv? : Option (Fin (m + 1) → ℝ)) (reg : ℝ) (t : ℕ) :
    compute_sinkhorn_stable M r? c? lv? reg (t + 1) =
      some ⟨∑ i, ∑ j, Real.exp (stableLUAt M r? c? lv? reg t i +
              logKmatrix reg M i j + stableLVAt M r? c? lv? reg t j) * M i j,
            fun i j => Real.exp (stableLUAt M r? c? lv? reg t i +
              logKmatrix reg M i j + stableLVAt M r? c? lv? reg t j),
            fun i j => stableLUAt M r? c? lv? reg t i +
              logKmatrix reg M i j + stableLVAt M r? c? lv? reg t j,
            stableLUAt M r? c? lv? reg t, stableLVAt M r? c? lv? reg t⟩ := rfl

/-- Every entry of the plan the stable solver returns is strictly positive
(each entry is an exponential). -/
lemma stable_P_pos {n m : ℕ} {M : Matrix (Fin (n + 1)) (Fin (m + 1)) ℝ}
    {r? : Option (Fin (n + 1) → ℝ)} {c? : Option (Fin (m + 1) → ℝ)}
    {lv? : Option (Fin (m + 1) → ℝ)} {reg : ℝ} {T : ℕ} {res : StableResult (n + 1) (m + 1)}
    (h : compute_sinkhorn_stable M r? c? lv? reg T = some res)
    (i : Fin (n + 1)) (j : Fin (m + 1)) : 0 < res.P i j := by
  cases T with
  | zero => rw [compute_sinkhorn_stable_zero] at h; exact absurd h (by simp)
  | succ t =>
    rw [compute_sinkhorn_stable_succ] at h
    rw [← Option.some.inj h]
    exact Real.exp_pos _

/-- After at least one pass of the stable solver, each column of the plan
sums exactly to the corresponding entry of the (positive) column marginal:
the loop body ends with the `log_v` update. -/
lemma stable_colsum {n m : ℕ} {M : Matrix (Fin (n + 1)) (Fin (m + 1)) ℝ}
    {r? : Option (Fin (n + 1) → ℝ)} {c? : Option (Fin (m + 1) → ℝ)}
    {lv? : Option (Fin (m + 1) → ℝ)} {reg : ℝ} {T : ℕ} {res : StableResult (n + 1) (m + 1)}
    (h : compute_sinkhorn_stable M r? c? lv? reg T = some res)
    (j : Fin (m + 1)) (hcj : 0 < (c?.getD (uniformDist (m + 1))) j) :
    ∑ i, res.P i j = (c?.getD (uniformDist (m + 1))) j := by
  cases T with
  | zero => rw [compute_sinkhorn_stable_zero] at h; exact absurd h (by simp)
  | succ t =>
    rw [compute_sinkhorn_stable_succ] at h
    rw [← Option.some.inj h]
    dsimp only
    have hsplit : ∀ i, Real.exp (stableLUAt M r? c? lv? reg t i +
        logKmatrix reg M i j + stableLVAt M r? c? lv? reg t j)
        = Real.exp (stableLUAt M r? c? lv? reg t i + logKmatrix reg M i j) *
          Real.exp (stableLVAt M r? c? lv? reg t j) := by
      intro i; rw [Real.exp_add]
    rw [Finset.sum_congr rfl (fun i _ => hsplit i), ← Finset.sum_mul]
    have hS : 0 < ∑ i, Real.exp (stableLUAt M r? c? lv? reg t i + logKmatrix reg M i j) :=
      Finset.sum_pos (fun i _ => Real.exp_pos _) Finset.univ_nonempty
    have hV : Real.exp (stableLVAt M r? c? lv? reg t j)
        = (c?.getD (uniformDist (m + 1))) j /
          ∑ i, Real.exp (stableLUAt M r? c? lv? reg t i + logKmatrix reg M i j) := by
      rw [stableLVAt, stableStepV]
      rw [Real.exp_sub, exp_log_sum_exp, logOf, Real.exp_log hcj]
    rw [hV, mul_comm, div_mul_cancel₀ _ (ne_of_gt hS)]

/-- All linear-domain loop iterates are strictly positive when the kernel
and both marginals are. -/
lemma sinkhornLoop_pos {n m : ℕ} {K : Matrix (Fin (n + 1)) (Fin (m + 1)) ℝ}
    {r : Fin (n + 1) → ℝ} {c : Fin (m + 1) → ℝ}
    (hK : ∀ i j, 0 < K i j) (hr : ∀ i, 0 < r i) (hc : ∀ j, 0 < c j) :
    ∀ t : ℕ, (∀ j, 0 < (sinkhornLoop K r c t).2 j) ∧
      (∀ u, (sinkhornLoop K r c t).1 = some u → ∀ i, 0 < u i) := by
  intro t
  induction t with
  | zero =>
    refine ⟨fun j => one_pos, fun u hu => ?_⟩
    rw [sinkhornLoop] at hu
    exact absurd hu (by simp)
  | succ t ih =>
    have hupos : ∀ i, 0 < sinkhornU K r ((sinkhornLoop K r c t).2) i := by
      intro i
      refine div_pos (hr i) (Finset.sum_pos (fun j _ => mul_pos (hK i j) (ih.1 j))
        Finset.univ_nonempty)
    constructor
    · intro j
      rw [sinkhornLoop]
      exact div_pos (hc j) (Finset.sum_pos (fun i _ => mul_pos (hupos i) (hK i j))
        Finset.univ_nonempty)
    · intro u hu
      rw [sinkhornLoop] at hu
      rw [← Option.some.inj hu]
      exact hupos

/-- After at least one pass of the naive solver with positive marginals,
each column of the plan sums exactly to the corresponding entry of the
column marginal. -/
lemma naive_colsum {n m : ℕ} {M : Matrix (Fin (n + 1)) (Fin (m + 1)) ℝ}
    {r? : Option (Fin (n + 1) → ℝ)} {c? : Option (Fin (m + 1) → ℝ)}
    {reg : ℝ} {T : ℕ} {res : SinkhornResult (n + 1) (m + 1)}
    (h : compute_sinkhorn M r? c? reg T = some res)
    (hr : ∀ i, 0 < (r?.getD (uniformDist (n + 1))) i)
    (hc : ∀ j, 0 < (c?.getD (uniformDist (m + 1))) j)
    (j : Fin (m + 1)) :
    ∑ i, res.P i j = (c?.getD (uniformDist (m + 1))) j := by
  cases T with
  | zero => rw [compute_sinkhorn_zero] at h; exact absurd h (by simp)
  | succ t =>
    rw [compute_sinkhorn_succ] at h
    rw [← Option.some.inj h]
    dsimp only
    have hKpos : ∀ i j, 0 < Kmatrix reg M i j := fun i j => Real.exp_pos _
    have hupos : ∀ i, 0 < naiveUAt M r? c? reg t i := by
      intro i
      rw [naiveUAt]
      refine div_pos (hr i) (Finset.sum_pos (fun j' _ => mul_pos (hKpos i j')
        ((sinkhornLoop_pos hKpos hr hc t).1 j')) Finset.univ_nonempty)
    have hden : 0 < ∑ i, naiveUAt M r? c? reg t i * Kmatrix reg M i j :=
      Finset.sum_pos (fun i _ => mul_pos (hupos i) (hKpos i j)) Finset.univ_nonempty
    have hv : naiveVAt M r? c? reg t j = (c?.getD (uniformDist (m + 1))) j /
        ∑ i, naiveUAt M r? c? reg t i * Kmatrix reg M i j := rfl
    calc ∑ i, naiveUAt M r? c? reg t i * Kmatrix reg M i j * naiveVAt M r? c? reg t j
        = (∑ i, naiveUAt M r? c? reg t i * Kmatrix reg M i j) *
            naiveVAt M r? c? reg t j := by rw [Finset.sum_mul]
      _ = (c?.getD (uniformDist (m + 1))) j := by
            rw [hv, mul_comm, div_mul_cancel₀ _ (ne_of_gt hden)]

/-! ### Exact marginal sums of the returned plan (claim C3, amended) -/

/-- C3 (amended): after at least one pass, for positive marginals with the
column marginal summing to 1, both solvers return a plan whose column sums
equal `c` exactly and whose total mass is exactly 1 (hence trivially within
the 1e-3 and 1e-2 tolerances the spec states for those two quantities). -/
theorem sinkhorn_colsums_exact_sum_one {n m : ℕ}
    (M : Matrix (Fin (n + 1)) (Fin (m + 1)) ℝ)
    (r? : Option (Fin (n + 1) → ℝ)) (c? : Option (Fin (m + 1) → ℝ))
    (reg : ℝ) (T : ℕ) (hT : T ≠ 0)
    (hr : ∀ i, 0 < (r?.getD (uniformDist (n + 1))) i)
    (hc : ∀ j, 0 < (c?.getD (uniformDist (m + 1))) j)
    (hcsum : ∑ j, (c?.getD (uniformDist (m + 1))) j = 1) :
    (∃ res, compute_sinkhorn M r? c? reg T = some res ∧
      (∀ j, ∑ i, res.P i j = (c?.getD (uniformDist (m + 1))) j) ∧
      (∑ i, ∑ j, res.P i j) = 1 ∧
      |(∑ i, ∑ j, res.P i j) - 1| ≤ 1 / 1000 ∧
      (∀ j, |(∑ i, res.P i j) - (c?.getD (uniformDist (m + 1))) j| ≤ 1 / 100)) ∧
    (∃ res, compute_sinkhorn_stable M r? c? none reg T = some res ∧
      (∀ j, ∑ i, res.P i j = (c?.getD (uniformDist (m + 1))) j) ∧
      (∑ i, ∑ j, res.P i j) = 1 ∧
      |(∑ i, ∑ j, res.P i j) - 1| ≤ 1 / 1000 ∧
      (∀ j, |(∑ i, res.P i j) - (c?.getD (uniformDist (m + 1))) j| ≤ 1 / 100)) := by
  obtain ⟨t, rfl⟩ := Nat.exists_eq_succ_of_ne_zero hT
  constructor
  · have h := compute_sinkhorn_succ M r? c? reg t
    refine ⟨_, h, ?_, ?_, ?_, ?_⟩
    · exact fun j => naive_colsum h hr hc j
    · rw [Finset.sum_comm]
      rw [Finset.sum_congr rfl (fun j _ => naive_colsum h hr hc j)]
      exact hcsum
    · rw [Finset.sum_comm, Finset.sum_congr rfl (fun j _ => naive_colsum h hr hc j),
        hcsum]
      norm_num
    · intro j
      rw [naive_colsum h hr hc j]
      norm_num
  · have h := compute_sinkhorn_stable_succ M r? c? none reg t
    refine ⟨_, h, ?_, ?_, ?_, ?_⟩
    · exact fun j => stable_colsum h j (hc j)
    · rw [Finset.sum_comm]
      rw [Finset.sum_congr rfl (fun j _ => stable_colsum h j (hc j))]
      exact hcsum
    · rw [Finset.sum_comm, Finset.sum_congr rfl (fun j _ => stable_colsum h j (hc j)),
        hcsum]
      norm_num
    · intro j
      rw [stable_colsum h j (hc j)]
      norm_num

/-! ### No marginal validation in the stable solver (claim C5) -/

/-- A 2×2 zero cost matrix (concrete test input). -/
def M₅ : Matrix (Fin 2) (Fin 2) ℝ := fun _ _ => 0

/-- A supplied row marginal containing a zero entry: not a valid
distribution. -/
def r₅ : Fin 2 → ℝ := ![0, 1]

/-- C5 counterexample: `compute_sinkhorn_stable` called with a row marginal
containing a zero entry does not fail: it returns a result (the source takes
`torch.log` of the invalid entry and keeps computing; no invalid-distribution
error is raised, eagerly or otherwise). -/
theorem stable_zero_marginal_no_error_cex :
    (compute_sinkhorn_stable M₅ (some r₅) none none 1 1).isSome = true := by
  rw [compute_sinkhorn_stable_succ]
  rfl

/-- C5 (amended): `compute_sinkhorn_stable` performs no validation of its
marginals whatsoever: for every supplied `r` and `c` — including ones with
zero or negative entries — and every nonzero iteration count it returns a
result instead of failing. -/
theorem stable_no_marginal_validation {n m : ℕ}
    (M : Matrix (Fin (n + 1)) (Fin (m + 1)) ℝ)
    (r : Fin (n + 1) → ℝ) (c : Fin (m + 1) → ℝ)
    (lv? : Option (Fin (m + 1) → ℝ)) (reg : ℝ) (T : ℕ) (hT : T ≠ 0) :
    (compute_sinkhorn_stable M (some r) (some c) lv? reg T).isSome = true := by
  obtain ⟨t, rfl⟩ := Nat.exists_eq_succ_of_ne_zero hT
  rw [compute_sinkhorn_stable_succ]
  rfl

/-- Witness for `stable_no_marginal_validation` at the concrete invalid
marginal `r₅ = [0, 1]`. -/
theorem stable_no_marginal_validation_witness :
    (1 : ℕ) ≠ 0 ∧
    (compute_sinkhorn_stable M₅ (some r₅) (some ![1 / 2, 1 / 2]) none 1 1).isSome
      = true :=
  ⟨by decide, stable_no_marginal_validation M₅ r₅ ![1 / 2, 1 / 2] none 1 1 (by decide)⟩

/-! ### Warm-started call with zero iterations (claim C6) -/

/-- The 1×1 zero cost matrix (concrete test input). -/
def M₆ : Matrix (Fin 1) (Fin 1) ℝ := fun _ _ => 0

/-- The converged output of the stable solver on `M₆` with uniform marginals
and `regularization = 1`: all dual variables are 0 and the plan is the 1×1
all-ones matrix. -/
def res₆ : StableResult 1 1 :=
  ⟨0, fun _ _ => 1, fun _ _ => 0, fun _ => 0, fun _ => 0⟩

lemma log_sum_exp_singleton (x : ℝ) : log_sum_exp (fun _ : Fin 1 => x) = x := by
  unfold log_sum_exp sliceMax
  rw [Finset.sup'_const]
  simp [Fin.sum_univ_one, sub_self, Real.exp_zero, Real.log_one]

lemma stepU₆ :
    stableStepU (logKmatrix 1 M₆)
      (logOf ((none : Option (Fin 1 → ℝ)).getD (uniformDist 1))) (fun _ => 0)
      = fun _ => 0 := by
  funext i
  rw [stableStepU]
  have h1 : (fun j : Fin 1 => logKmatrix 1 M₆ i j + (fun _ : Fin 1 => (0 : ℝ)) j)
      = fun _ : Fin 1 => (0 : ℝ) := by
    funext j; simp [logKmatrix, M₆]
  rw [h1, log_sum_exp_singleton]
  simp [logOf, uniformDist]

lemma stepV₆ :
    stableStepV (logKmatrix 1 M₆)
      (logOf ((none : Option (Fin 1 → ℝ)).getD (uniformDist 1))) (fun _ => 0)
      = fun _ => 0 := by
  funext j
  rw [stableStepV]
  have h1 : (fun i : Fin 1 => (fun _ : Fin 1 => (0 : ℝ)) i + logKmatrix 1 M₆ i j)
      = fun _ : Fin 1 => (0 : ℝ) := by
    funext i; simp [logKmatrix, M₆]
  rw [h1, log_sum_exp_singleton]
  simp [logOf, uniformDist]

lemma stableLUAt₆ : stableLUAt M₆ none none none 1 0 = fun _ => 0 := stepU₆

lemma stableLVAt₆ : stableLVAt M₆ none none none 1 0 = fun _ => 0 := by
  unfold stableLVAt
  rw [stableLUAt₆]
  exact stepV₆

/-- Running the stable solver on `M₆` for one pass yields `res₆`. -/
lemma run₆ : compute_sinkhorn_stable M₆ none none none 1 1 = some res₆ := by
  rw [compute_sinkhorn_stable_succ]
  simp only [stableLUAt₆, stableLVAt₆, res₆, Option.some.injEq, StableResult.mk.injEq]
  refine ⟨?_, ?_, ?_, trivial, trivial⟩
  · simp [logKmatrix, M₆]
  · funext i j; simp [logKmatrix, M₆]
  · funext i j; simp [logKmatrix, M₆]

/-- Inversion: a successful stable-solver run determines the derived output
fields from the final dual variables. -/
lemma stable_some_fields {n m : ℕ} {M : Matrix (Fin (n + 1)) (Fin (m + 1)) ℝ}
    {r? : Option (Fin (n + 1) → ℝ)} {c? : Option (Fin (m + 1) → ℝ)}
    {lv? : Option (Fin (m + 1) → ℝ)} {reg : ℝ} {T : ℕ}
    {res : StableResult (n + 1) (m + 1)}
    (h : compute_sinkhorn_stable M r? c? lv? reg T = some res) :
    res.log_P = (fun i j => res.log_u i + logKmatrix reg M i j + res.log_v j) ∧
    res.P = (fun i j => Real.exp (res.log_P i j)) ∧
    res.dst = ∑ i, ∑ j, res.P i j * M i j := by
  cases T with
  | zero => rw [compute_sinkhorn_stable_zero] at h; exact absurd h (by simp)
  | succ t =>
    rw [compute_sinkhorn_stable_succ] at h
    obtain rfl := (Option.some.inj h).symm
    exact ⟨rfl, rfl, rfl⟩

/-- C6 counterexample: the solver has genuinely converged on `M₆` (the
returned dual state is an exact fixed point of both updates), yet calling
`compute_sinkhorn_stable` again warm-started from the converged `log_v` with
`iterations = 0` does not return the same plan — it returns no plan at all,
because `log_u` is only assigned inside the loop (a Python `NameError`). -/
theorem warm_start_zero_iterations_cex :
    compute_sinkhorn_stable M₆ none none none 1 1 = some res₆ ∧
    stableStepU (logKmatrix 1 M₆)
      (logOf ((none : Option (Fin 1 → ℝ)).getD (uniformDist 1))) res₆.log_v
      = res₆.log_u ∧
    stableStepV (logKmatrix 1 M₆)
      (logOf ((none : Option (Fin 1 → ℝ)).getD (uniformDist 1))) res₆.log_u
      = res₆.log_v ∧
    compute_sinkhorn_stable M₆ none none (some res₆.log_v) 1 0 = none :=
  ⟨run₆, stepU₆, stepV₆, rfl⟩

/-- C6 (amended): if a successful stable-solver run returned a dual state
that is an exact fixed point of the two updates, then calling the solver
again on the same inputs, warm-started from the returned `log_v`, with one
(not zero) further iteration reproduces the identical output — plan, cost,
and duals. -/
theorem warm_start_fixed_point {n m : ℕ}
    {M : Matrix (Fin (n + 1)) (Fin (m + 1)) ℝ}
    {r? : Option (Fin (n + 1) → ℝ)} {c? : Option (Fin (m + 1) → ℝ)}
    {lv? : Option (Fin (m + 1) → ℝ)} {reg : ℝ} {T : ℕ}
    {res : StableResult (n + 1) (m + 1)}
    (hrun : compute_sinkhorn_stable M r? c? lv? reg T = some res)
    (hfixU : stableStepU (logKmatrix reg M)
      (logOf (r?.getD (uniformDist (n + 1)))) res.log_v = res.log_u)
    (hfixV : stableStepV (logKmatrix reg M)
      (logOf (c?.getD (uniformDist (m + 1)))) res.log_u = res.log_v) :
    compute_sinkhorn_stable M r? c? (some res.log_v) reg 1 = some res := by
  obtain ⟨hlP, hP, hdst⟩ := stable_some_fields hrun
  have hLU : stableLUAt M r? c? (some res.log_v) reg 0 = res.log_u := hfixU
  have hLV : stableLVAt M r? c? (some res.log_v) reg 0 = res.log_v := by
    unfold stableLVAt
    rw [hLU]
    exact hfixV
  rw [compute_sinkhorn_stable_succ]
  cases res with
  | mk dst P lP lu lv =>
    dsimp only at hlP hP hdst hLU hLV ⊢
    simp only [hLU, hLV, hdst, hP, hlP]

/-- Witness for `warm_start_fixed_point` at the concrete converged run on
`M₆`. -/
theorem warm_start_fixed_point_witness :
    compute_sinkhorn_stable M₆ none none none 1 1 = some res₆ ∧
    stableStepU (logKmatrix 1 M₆)
      (logOf ((none : Option (Fin 1 → ℝ)).getD (uniformDist 1))) res₆.log_v
      = res₆.log_u ∧
    stableStepV (logKmatrix 1 M₆)
      (logOf ((none : Option (Fin 1 → ℝ)).getD (uniformDist 1))) res₆.log_u
      = res₆.log_v ∧
    compute_sinkhorn_stable M₆ none none (some res₆.log_v) 1 1 = some res₆ :=
  ⟨run₆, stepU₆, stepV₆, warm_start_fixed_point run₆ stepU₆ stepV₆⟩

/-- Witness for `sinkhorn_stable_refines_naive` at a concrete 2×2 input with
uniform default marginals. -/
theorem sinkhorn_stable_refines_naive_witness :
    (∀ i : Fin 2, 0 < ((none : Option (Fin 2 → ℝ)).getD (uniformDist 2)) i) ∧
    (compute_sinkhorn_stable M₅ none none none 1 1).map (fun res => (res.dst, res.P))
      = (compute_sinkhorn M₅ none none 1 1).map (fun res => (res.dst, res.P)) := by
  have h1 : ∀ i : Fin 2, 0 < ((none : Option (Fin 2 → ℝ)).getD (uniformDist 2)) i := by
    intro i
    norm_num [Option.getD_none, uniformDist]
  exact ⟨h1, sinkhorn_stable_refines_naive M₅ none none 1 1 h1 h1⟩

/-- Witness for `sinkhorn_colsums_exact_sum_one` at a concrete 2×2 input with
uniform default marginals. -/
theorem sinkhorn_colsums_exact_sum_one_witness :
    ((1 : ℕ) ≠ 0 ∧
     (∀ i : Fin 2, 0 < ((none : Option (Fin 2 → ℝ)).getD (uniformDist 2)) i) ∧
     (∑ j, ((none : Option (Fin 2 → ℝ)).getD (uniformDist 2)) j) = 1) ∧
    ((∃ res, compute_sinkhorn M₅ none none 1 1 = some res ∧
      (∀ j, ∑ i, res.P i j = ((none : Option (Fin 2 → ℝ)).getD (uniformDist 2)) j) ∧
      (∑ i, ∑ j, res.P i j) = 1 ∧
      |(∑ i, ∑ j, res.P i j) - 1| ≤ 1 / 1000 ∧
      (∀ j, |(∑ i, res.P i j) - ((none : Option (Fin 2 → ℝ)).getD (uniformDist 2)) j|
        ≤ 1 / 100)) ∧
     (∃ res, compute_sinkhorn_stable M₅ none none none 1 1 = some res ∧
      (∀ j, ∑ i, res.P i j = ((none : Option (Fin 2 → ℝ)).getD (uniformDist 2)) j) ∧
      (∑ i, ∑ j, res.P i j) = 1 ∧
      |(∑ i, ∑ j, res.P i j) - 1| ≤ 1 / 1000 ∧
      (∀ j, |(∑ i, res.P i j) - ((none : Option (Fin 2 → ℝ)).getD (uniformDist 2)) j|
        ≤ 1 / 100))) := by
  have h1 : ∀ i : Fin 2, 0 < ((none : Option (Fin 2 → ℝ)).getD (uniformDist 2)) i := by
    intro i
    norm_num [Option.getD_none, uniformDist]
  have h3 : (∑ j, ((none : Option (Fin 2 → ℝ)).getD (uniformDist 2)) j) = 1 := by
    simp only [Option.getD_none, uniformDist, Fin.sum_univ_two]
    norm_num
  exact ⟨⟨Nat.one_ne_zero, h1, h3⟩,
    sinkhorn_colsums_exact_sum_one M₅ none none 1 1 Nat.one_ne_zero h1 h1 h3⟩

/-! ### A shape-aware tensor model (for the shape/rank assertions) -/

/-- A torch tensor: its shape (`t.size()`) plus the row-major flat data. -/
structure Tensor where
  shape : List ℕ
  data : List ℝ

/-- Rank of the tensor, `len(t.size())`. -/
def Tensor.rank (t : Tensor) : ℕ := t.shape.length

/-- Axis size `t.size()[k]` (with junk value 0 out of range; in Python an
out-of-range access raises, which callers below surface as `none`). -/
def Tensor.size (t : Tensor) (k : ℕ) : ℕ := t.shape.getD k 0

/-- Entry `(i, j)` of a rank-2 tensor, row-major (junk value 0 out of
range). -/
def Tensor.ent2 (t : Tensor) (i j : ℕ) : ℝ := t.data.getD (i * t.size 1 + j) 0

/-- Row `i` of a rank-2 tensor as a point of `d`-dimensional Euclidean
space. -/
def Tensor.rowVec (t : Tensor) (d : ℕ) (i : ℕ) : EuclideanSpace ℝ (Fin d) :=
  (WithLp.equiv 2 (Fin d → ℝ)).symm (fun k => t.ent2 i (k : ℕ))

/-- Function `get_pairwise_distances(m, n)` (lines 93-97): checks
`m.size()[1] == n.size()[1]` and that both inputs are 2-D (any failure —
the `IndexError` on a sub-2-D input or either `assert` — is `none`), then
returns `((m[:,:,None] - n.t()[None,:,:])**2).sum(1)`, whose `(i,j)` entry
is `sum_k (m[i,k] - n[j,k])^2`. -/
def get_pairwise_distances_t (m n : Tensor) : Option Tensor :=
  if m.size 1 = n.size 1 ∧ m.rank = 2 ∧ n.rank = 2 then
    some ⟨[m.size 0, n.size 0],
      (List.range (m.size 0)).flatMap (fun i =>
        (List.range (n.size 0)).map (fun j =>
          ∑ k ∈ Finset.range (m.size 1), (m.ent2 i k - n.ent2 j k) ^ 2))⟩
  else none

lemma bind_range_map_length (f : ℕ → ℕ → ℝ) (a b : ℕ) :
    ((List.range a).flatMap (fun i' => (List.range b).map (f i'))).length = a * b := by
  induction a with
  | zero => simp
  | succ a ih =>
    rw [List.range_succ, List.flatMap_append, List.length_append, ih]
    simp [Nat.succ_mul]

lemma bind_range_map_getD (f : ℕ → ℕ → ℝ) (b : ℕ) :
    ∀ (a i j : ℕ), i < a → j < b →
      ((List.range a).flatMap (fun i' => (List.range b).map (f i'))).getD (i * b + j) 0
        = f i j := by
  intro a
  induction a with
  | zero => intro i j hi _; exact absurd hi (Nat.not_lt_zero i)
  | succ a ih =>
    intro i j hi hj
    rw [List.range_succ, List.flatMap_append]
    rcases Nat.lt_or_ge i a with h | h
    · rw [List.getD_append]
      · exact ih i j h hj
      · rw [bind_range_map_length]
        calc i * b + j < i * b + b := by omega
          _ = (i + 1) * b := by ring
          _ ≤ a * b := Nat.mul_le_mul_right b (by omega)
    · have hia : i = a := by omega
      subst hia
      rw [List.getD_append_right]
      · rw [bind_range_map_length, Nat.add_sub_cancel_left]
        have hsingle : ([i].flatMap (fun i' => (List.range b).map (f i')))
            = (List.range b).map (f i) := by simp
        rw [hsingle, List.getD_eq_getElem?_getD, List.getElem?_map,
          List.getElem?_range hj]
        rfl
      · rw [bind_range_map_length]
        exact Nat.le_add_right _ _

/-- Entry formula for a successful pairwise-distance call. -/
lemma gpd_ent {A B : Tensor} {D : Tensor}
    (hD : get_pairwise_distances_t A B = some D)
    {i j : ℕ} (hi : i < A.size 0) (hj : j < B.size 0) :
    D.ent2 i j = ∑ k ∈ Finset.range (A.size 1), (A.ent2 i k - B.ent2 j k) ^ 2 := by
  unfold get_pairwise_distances_t at hD
  by_cases hg : A.size 1 = B.size 1 ∧ A.rank = 2 ∧ B.rank = 2
  · rw [if_pos hg] at hD
    obtain rfl := (Option.some.inj hD).symm
    exact bind_range_map_getD _ (B.size 0) (A.size 0) i j hi hj
  · rw [if_neg hg] at hD
    exact absurd hD (by simp)

lemma dist_sq_rowVec (A B : Tensor) (d i j : ℕ) :
    dist (A.rowVec d i) (B.rowVec d j) ^ 2
      = ∑ k ∈ Finset.range d, (A.ent2 i k - B.ent2 j k) ^ 2 := by
  rw [EuclideanSpace.dist_eq, Real.sq_sqrt (by positivity)]
  rw [← Fin.sum_univ_eq_sum_range (fun k => (A.ent2 i k - B.ent2 j k) ^ 2)]
  refine Finset.sum_congr rfl (fun k _ => ?_)
  unfold Tensor.rowVec
  rw [WithLp.equiv_symm_pi_apply, WithLp.equiv_symm_pi_apply, Real.dist_eq, sq_abs]

/-- C7: on matching 2-D inputs, `get_pairwise_distances` succeeds and its
`(i,j)` entry is the squared Euclidean distance between row `i` of `A` and
row `j` of `B`; on `(A, A)` the result is symmetric with zero diagonal; and
any feature-dimension mismatch or non-2-D input makes the call fail. -/
theorem get_pairwise_distances_spec :
    ∀ A B : Tensor,
      (A.rank = 2 → B.rank = 2 → A.size 1 = B.size 1 →
        ∃ D, get_pairwise_distances_t A B = some D ∧
          D.shape = [A.size 0, B.size 0] ∧
          ∀ i j, i < A.size 0 → j < B.size 0 →
            D.ent2 i j = dist (A.rowVec (A.size 1) i) (B.rowVec (A.size 1) j) ^ 2) ∧
      (∀ D, get_pairwise_distances_t A A = some D →
        (∀ i j, i < A.size 0 → j < A.size 0 → D.ent2 i j = D.ent2 j i) ∧
        (∀ i, i < A.size 0 → D.ent2 i i = 0)) ∧
      (¬(A.size 1 = B.size 1 ∧ A.rank = 2 ∧ B.rank = 2) →
        get_pairwise_distances_t A B = none) := by
  intro A B
  refine ⟨?_, ?_, ?_⟩
  · intro hA hB hd
    have hD : get_pairwise_distances_t A B =
        some ⟨[A.size 0, B.size 0],
          (List.range (A.size 0)).flatMap (fun i =>
            (List.range (B.size 0)).map (fun j =>
              ∑ k ∈ Finset.range (A.size 1), (A.ent2 i k - B.ent2 j k) ^ 2))⟩ := by
      unfold get_pairwise_distances_t
      rw [if_pos ⟨hd, hA, hB⟩]
    refine ⟨_, hD, rfl, ?_⟩
    intro i j hi hj
    rw [gpd_ent hD hi hj, dist_sq_rowVec]
  · intro D hD
    constructor
    · intro i j hi hj
      rw [gpd_ent hD hi hj, gpd_ent hD hj hi]
      exact Finset.sum_congr rfl (fun k _ => by ring)
    · intro i hi
      rw [gpd_ent hD hi hi]
      simp
  · intro hg
    unfold get_pairwise_distances_t
    rw [if_neg hg]

/-- Witness for `get_pairwise_distances_spec`: a matching pair of 1×2
tensors (success case with the entry/distance formula) and a mismatched
pair (failure case). -/
theorem get_pairwise_distances_spec_witness :
    (∃ D, get_pairwise_distances_t (Tensor.mk [1, 2] [3, 4])
        (Tensor.mk [1, 2] [0, 0]) = some D ∧
      D.shape = [1, 1] ∧
      ∀ i j, i < 1 → j < 1 →
        D.ent2 i j = dist ((Tensor.mk [1, 2] [3, 4]).rowVec 2 i)
          ((Tensor.mk [1, 2] [0, 0]).rowVec 2 j) ^ 2) ∧
    get_pairwise_distances_t (Tensor.mk [1, 2] [3, 4])
      (Tensor.mk [1, 3] [0, 0, 0]) = none :=
  ⟨(get_pairwise_distances_spec (Tensor.mk [1, 2] [3, 4])
      (Tensor.mk [1, 2] [0, 0])).1 rfl rfl rfl,
   (get_pairwise_distances_spec (Tensor.mk [1, 2] [3, 4])
      (Tensor.mk [1, 3] [0, 0, 0])).2.2 (by decide)⟩

/-! ### k-means clustering (`cluster_kmeans_flat` / `cluster_kmeans`,
lines 160-213) -/

/-- View `X.view((len(X), -1))` (lines 142 and 208): keep axis 0, flatten the
trailing axes. -/
def Tensor.view2flat (t : Tensor) : Tensor :=
  ⟨[t.size 0, (t.shape.drop 1).prod], t.data⟩

/-- Index of the first minimum of a list (`distances.argmin(1)` on one
row, line 196). -/
def argminIdx (l : List ℝ) : ℕ :=
  (List.range l.length).foldl
    (fun best i => if l.getD i 0 < l.getD best 0 then i else best) 0

/-- Squared Euclidean distance between two coordinate lists (one entry of
`get_pairwise_distances(X, centroids)`, line 193). -/
def sqDistL (x y : List ℝ) : ℝ :=
  ∑ k ∈ Finset.range x.length, (x.getD k 0 - y.getD k 0) ^ 2

/-- One k-means pass (lines 190-202): hard-assign each point to its nearest
centroid, build the one-hot assignment matrix, and replace centroid `j` by
the epsilon-guarded average `weights.t() @ X` of its assigned points. -/
def kmeansUpdate (pts : List (List ℝ)) (d k : ℕ) (eps : ℝ)
    (cents : List (List ℝ)) : List (List ℝ) :=
  let assignment := pts.map (fun x => argminIdx (cents.map (fun c => sqDistL x c)))
  (List.range k).map (fun j =>
    let members := (pts.zip assignment).filter (fun p => p.2 == j)
    let w := 1 / (eps + (members.length : ℝ))
    (List.range d).map (fun kk => w * ((members.map (fun p => p.1.getD kk 0)).sum)))

/-- Function `cluster_kmeans_flat(X, n_components, iterations=20, kmeansplusplus=False,
epsilon=1e-6)` (lines 160-204).  The entry `assert len(X.size()) == 2`
(line 167) is the `none` branch.  The random choice of initial centroid
indices — `np.random.choice` or the k-means++ sampling scheme — is modelled
by the explicit index-list parameter `init`. -/
def cluster_kmeans_flat_t (X : Tensor) (k iters : ℕ) (init : List ℕ)
    (eps : ℝ) : Option Tensor :=
  if X.rank = 2 then
    let d := X.size 1
    let pts := (List.range (X.size 0)).map
      (fun i => (List.range d).map (fun kk => X.ent2 i kk))
    let cents0 := init.map (fun idx => (List.range d).map (fun kk => X.ent2 idx kk))
    let cents := (kmeansUpdate pts d k eps)^[iters] cents0
    some ⟨[k, d], cents.foldr (· ++ ·) []⟩
  else none

/-- Function `cluster_kmeans(X, n_components, ...)` (lines 207-213): computes the
flattened view `X_flat = X.view((len(X), -1))` but passes the unflattened
`X` to `cluster_kmeans_flat` (line 209, as in the source), then reshapes the
returned centroids to `size = list(X.size()); size[0] = n_components`. -/
def cluster_kmeans_t (X : Tensor) (k iters : ℕ) (init : List ℕ) (eps : ℝ) :
    Option Tensor :=
  let X_flat := X.view2flat
  (cluster_kmeans_flat_t X k iters init eps).map
    (fun cf => ⟨k :: X.shape.drop 1, cf.data⟩)

/-- C9: on any input of rank greater than 2, `cluster_kmeans` fails (the
entry assertion of `cluster_kmeans_flat` receives the unflattened `X`),
even though the flattened view it computed is rank 2 and would have been
accepted. -/
theorem cluster_kmeans_rank_assert :
    ∀ (X : Tensor) (k iters : ℕ) (init : List ℕ) (eps : ℝ),
      2 < X.rank →
      cluster_kmeans_t X k iters init eps = none ∧ X.view2flat.rank = 2 := by
  intro X k iters init eps h
  constructor
  · unfold cluster_kmeans_t cluster_kmeans_flat_t
    rw [if_neg (by omega)]
    rfl
  · rfl

/-- Witness for `cluster_kmeans_rank_assert` at a concrete 2×2×2 tensor. -/
theorem cluster_kmeans_rank_assert_witness :
    2 < (Tensor.mk [2, 2, 2] (List.replicate 8 0)).rank ∧
    (cluster_kmeans_t (Tensor.mk [2, 2, 2] (List.replicate 8 0)) 2 1 [0, 1] 0
        = none ∧
      (Tensor.mk [2, 2, 2] (List.replicate 8 0)).view2flat.rank = 2) :=
  ⟨by decide,
   cluster_kmeans_rank_assert (Tensor.mk [2, 2, 2] (List.replicate 8 0)) 2 1
     [0, 1] 0 (by decide)⟩

/-! ### Wasserstein soft clustering (`cluster_wasserstein_flat`,
lines 100-138) -/

/-- Typed pairwise squared-distance matrix (`get_pairwise_distances` on
well-shaped inputs, line 96):
`((m[:,:,None] - n.t()[None,:,:])**2).sum(1)`. -/
def pairwise_distances {a b d : ℕ} (A : Matrix (Fin a) (Fin d) ℝ)
    (B : Matrix (Fin b) (Fin d) ℝ) : Matrix (Fin a) (Fin b) ℝ :=
  fun i j => ∑ x, (A i x - B.transpose x j) ^ 2

/-- Column-normalized soft assignments (line 126):
`P / P.sum(0, keepdim=True)`. -/
def softAssignOf {n k : ℕ} (P : Matrix (Fin n) (Fin k) ℝ) :
    Matrix (Fin n) (Fin k) ℝ :=
  fun i j => P i j / ∑ i', P i' j

/-- Loop state of `cluster_wasserstein_flat`: the centroids, the warm-start
dual state, and the plan and soft-assignment matrix of the last completed
pass (`none` before the first pass, since `P` is loop-local in the
source). -/
structure WassersteinState (n k d : ℕ) where
  centroids : Matrix (Fin k) (Fin d) ℝ
  log_v : Option (Fin k → ℝ)
  P : Option (Matrix (Fin n) (Fin k) ℝ)
  soft : Option (Matrix (Fin n) (Fin k) ℝ)

/-- One outer pass of `cluster_wasserstein_flat` (lines 117-136) at outer
index `t`: sinkhorn-solve the current distances with 20 inner iterations
when `t = 0` and 4 afterwards, warm-started `log_v`, and no explicit
marginals (both default to uniform); column-normalize the plan
(`detach_` is numerically the identity); recompute centroids as
`soft_assignments.t() @ X`; optionally add scaled noise. -/
def wassersteinStep {n k d : ℕ} (X : Matrix (Fin (n + 1)) (Fin (d + 1)) ℝ)
    (reg add_noise : ℝ) (noise : Matrix (Fin (k + 1)) (Fin (d + 1)) ℝ) (t : ℕ)
    (s : WassersteinState (n + 1) (k + 1) (d + 1)) :
    Option (WassersteinState (n + 1) (k + 1) (d + 1)) :=
  let distances := pairwise_distances X s.centroids
  let inner := if t = 0 then 20 else 4
  match compute_sinkhorn_stable distances none none s.log_v reg inner with
  | none => none
  | some res =>
    let soft := softAssignOf res.P
    let cents : Matrix (Fin (k + 1)) (Fin (d + 1)) ℝ := fun j x =>
      (∑ i, soft.transpose j i * X i x) +
        (if 0 < add_noise then add_noise * noise j x else 0)
    some ⟨cents, some res.log_v, some res.P, some soft⟩

/-- The outer loop of `cluster_wasserstein_flat`: state after `t` passes.
The random draws — initial centroids `0.01 * torch.randn(...)` (line 115)
and the per-pass noise (line 136) — are modelled by the explicit parameters
`init_noise` and `noise`. -/
def wassersteinTraj {n k d : ℕ} (X : Matrix (Fin (n + 1)) (Fin (d + 1)) ℝ)
    (reg add_noise : ℝ) (init_noise : Matrix (Fin (k + 1)) (Fin (d + 1)) ℝ)
    (noise : ℕ → Matrix (Fin (k + 1)) (Fin (d + 1)) ℝ) :
    ℕ → Option (WassersteinState (n + 1) (k + 1) (d + 1))
  | 0 => some ⟨fun i j => 0.01 * init_noise i j, none, none, none⟩
  | t + 1 => (wassersteinTraj X reg add_noise init_noise noise t).bind
      (wassersteinStep X reg add_noise (noise t) t)

/-- Function `cluster_wasserstein_flat(X, n_components, regularization=100.,
iterations=20, stop_gradient=True, add_noise=0.001)` (lines 100-138):
run the outer loop and return the final centroids and the last plan. -/
def cluster_wasserstein_flat {n k d : ℕ}
    (X : Matrix (Fin (n + 1)) (Fin (d + 1)) ℝ) (reg add_noise : ℝ)
    (init_noise : Matrix (Fin (k + 1)) (Fin (d + 1)) ℝ)
    (noise : ℕ → Matrix (Fin (k + 1)) (Fin (d + 1)) ℝ) (iterations : ℕ) :
    Option (Matrix (Fin (k + 1)) (Fin (d + 1)) ℝ ×
      Option (Matrix (Fin (n + 1)) (Fin (k + 1)) ℝ)) :=
  (wassersteinTraj X reg add_noise init_noise noise iterations).map
    (fun s => (s.centroids, s.P))

lemma stable_isSome {n m : ℕ} (M : Matrix (Fin (n + 1)) (Fin (m + 1)) ℝ)
    (r? : Option (Fin (n + 1) → ℝ)) (c? : Option (Fin (m + 1) → ℝ))
    (lv? : Option (Fin (m + 1) → ℝ)) (reg : ℝ) (T : ℕ) (hT : T ≠ 0) :
    ∃ res, compute_sinkhorn_stable M r? c? lv? reg T = some res := by
  obtain ⟨t, rfl⟩ := Nat.exists_eq_succ_of_ne_zero hT
  exact ⟨_, compute_sinkhorn_stable_succ M r? c? lv? reg t⟩

lemma wassersteinTraj_isSome {n k d : ℕ}
    (X : Matrix (Fin (n + 1)) (Fin (d + 1)) ℝ) (reg add_noise : ℝ)
    (init_noise : Matrix (Fin (k + 1)) (Fin (d + 1)) ℝ)
    (noise : ℕ → Matrix (Fin (k + 1)) (Fin (d + 1)) ℝ) :
    ∀ t, ∃ s, wassersteinTraj X reg add_noise init_noise noise t = some s := by
  intro t
  induction t with
  | zero => exact ⟨_, rfl⟩
  | succ t ih =>
    obtain ⟨s, hs⟩ := ih
    obtain ⟨res, hres⟩ := stable_isSome (pairwise_distances X s.centroids)
      none none s.log_v reg (if t = 0 then 20 else 4)
      (by cases t <;> simp)
    rw [wassersteinTraj, hs, Option.some_bind]
    unfold wassersteinStep
    dsimp only
    rw [hres]
    exact ⟨_, rfl⟩

/-- Unfolding one outer pass: the state after pass `t` yields, via the
stable solver, the state after pass `t + 1`, whose `P` and `soft` fields
record that pass's plan and soft assignments. -/
lemma wassersteinTraj_succ_spec {n k d : ℕ}
    {X : Matrix (Fin (n + 1)) (Fin (d + 1)) ℝ} {reg add_noise : ℝ}
    {init_noise : Matrix (Fin (k + 1)) (Fin (d + 1)) ℝ}
    {noise : ℕ → Matrix (Fin (k + 1)) (Fin (d + 1)) ℝ} {t : ℕ}
    {s : WassersteinState (n + 1) (k + 1) (d + 1)}
    (hs : wassersteinTraj X reg add_noise init_noise noise t = some s) :
    ∃ res, compute_sinkhorn_stable (pairwise_distances X s.centroids) none none
        s.log_v reg (if t = 0 then 20 else 4) = some res ∧
      wassersteinTraj X reg add_noise init_noise noise (t + 1) =
        some ⟨fun j x => (∑ i, (softAssignOf res.P).transpose j i * X i x) +
            (if 0 < add_noise then add_noise * noise t j x else 0),
          some res.log_v, some res.P, some (softAssignOf res.P)⟩ := by
  obtain ⟨res, hres⟩ := stable_isSome (pairwise_distances X s.centroids)
    none none s.log_v reg (if t = 0 then 20 else 4)
    (by cases t <;> simp)
  refine ⟨res, hres, ?_⟩
  rw [wassersteinTraj, hs, Option.some_bind]
  unfold wassersteinStep
  dsimp only
  rw [hres]

/-- C8: at every outer iteration of the Wasserstein clustering loop, the
soft-assignment matrix obtained by column-normalizing the transport plan is
column-stochastic: each of its columns sums to 1. -/
theorem soft_assignments_column_stochastic :
    ∀ (n k d : ℕ) (X : Matrix (Fin (n + 1)) (Fin (d + 1)) ℝ)
      (reg add_noise : ℝ) (init_noise : Matrix (Fin (k + 1)) (Fin (d + 1)) ℝ)
      (noise : ℕ → Matrix (Fin (k + 1)) (Fin (d + 1)) ℝ) (t : ℕ),
      ∃ s A, wassersteinTraj X reg add_noise init_noise noise (t + 1) = some s ∧
        s.soft = some A ∧ ∀ j, ∑ i, A i j = 1 := by
  intro n k d X reg add_noise init_noise noise t
  obtain ⟨s, hs⟩ := wassersteinTraj_isSome X reg add_noise init_noise noise t
  obtain ⟨res, hres, hsucc⟩ := wassersteinTraj_succ_spec hs
  refine ⟨_, softAssignOf res.P, hsucc, rfl, ?_⟩
  intro j
  have hpos : 0 < ∑ i, res.P i j :=
    Finset.sum_pos (fun i _ => stable_P_pos hres i j) Finset.univ_nonempty
  unfold softAssignOf
  rw [← Finset.sum_div, div_self (ne_of_gt hpos)]

/-- C10: the Wasserstein clustering loop calls the stable solver with no
explicit marginals (both default to uniform); consequently at every outer
iteration the plan has strictly positive entries and each of its columns
sums exactly to `1/k` (`k` centroids receive equal mass), so the column
normalization never divides by zero. -/
theorem wasserstein_plan_balanced :
    ∀ (n k d : ℕ) (X : Matrix (Fin (n + 1)) (Fin (d + 1)) ℝ)
      (reg add_noise : ℝ) (init_noise : Matrix (Fin (k + 1)) (Fin (d + 1)) ℝ)
      (noise : ℕ → Matrix (Fin (k + 1)) (Fin (d + 1)) ℝ) (t : ℕ),
      ∃ s P, wassersteinTraj X reg add_noise init_noise noise (t + 1) = some s ∧
        s.P = some P ∧ (∀ i j, 0 < P i j) ∧
        (∀ j, ∑ i, P i j = 1 / ((k : ℝ) + 1)) ∧
        (∀ j, (∑ i, P i j) ≠ 0) := by
  intro n k d X reg add_noise init_noise noise t
  obtain ⟨s, hs⟩ := wassersteinTraj_isSome X reg add_noise init_noise noise t
  obtain ⟨res, hres, hsucc⟩ := wassersteinTraj_succ_spec hs
  have hcol : ∀ j, ∑ i, res.P i j = 1 / ((k : ℝ) + 1) := by
    intro j
    have huni : (0 : ℝ) <
        ((none : Option (Fin (k + 1) → ℝ)).getD (uniformDist (k + 1))) j := by
      rw [Option.getD_none]
      unfold uniformDist
      positivity
    rw [stable_colsum hres j huni, Option.getD_none]
    unfold uniformDist
    push_cast
    ring
  refine ⟨_, res.P, hsucc, rfl, fun i j => stable_P_pos hres i j, hcol, ?_⟩
  intro j
  rw [hcol j]
  positivity

/-! ### An ill-conditioned input on which 40 Sinkhorn passes do not bring
the row sums within 1e-2 of `r` (counterexample for claim C3) -/

/-- Off-diagonal cost `log(10^100)/100`, chosen so that the kernel entry
`exp(-100 * gammaCost)` is exactly `10^(-100)`. -/
def gammaCost : ℝ := Real.log (10 ^ 100) / 100

/-- A symmetric nonnegative 2×2 cost matrix with zero diagonal whose kernel
at `regularization = 100` is extremely ill-conditioned. -/
def M₃ : Matrix (Fin 2) (Fin 2) ℝ := ![![0, gammaCost], ![gammaCost, 0]]

/-- Row marginal `(9/10, 1/10)`: strictly positive, sums to 1. -/
def r₃ : Fin 2 → ℝ := ![9 / 10, 1 / 10]

/-- Column marginal `(1/2, 1/2)`: strictly positive, sums to 1. -/
def c₃ : Fin 2 → ℝ := ![1 / 2, 1 / 2]

/-- The tiny off-diagonal kernel entry `10^(-100)`. -/
def epsK : ℝ := ((10 : ℝ) ^ 100)⁻¹

/-- The kernel of `M₃` at `regularization = 100`. -/
def K₃m : Matrix (Fin 2) (Fin 2) ℝ := ![![1, epsK], ![epsK, 1]]

lemma eps_pos : (0 : ℝ) < epsK := by unfold epsK; positivity

lemma eps_le : epsK ≤ 1 / 1000 := by
  unfold epsK
  have h := inv_anti₀ (by norm_num : (0 : ℝ) < 1000)
    (by norm_num : (1000 : ℝ) ≤ 10 ^ 100)
  simpa using h

lemma eps_mul_le : epsK * 10 ^ 39 ≤ 1 / 1000 := by
  unfold epsK
  rw [inv_mul_eq_div, div_le_div_iff₀ (by positivity) (by norm_num)]
  norm_num

/-- The kernel of the counterexample computes to `K₃m`. -/
lemma K₃ : Kmatrix 100 M₃ = K₃m := by
  funext i j
  have hkey : Real.exp (-(100 * gammaCost)) = epsK := by
    have h1 : -(100 * gammaCost) = -Real.log ((10 : ℝ) ^ 100) := by
      unfold gammaCost; ring
    rw [h1, Real.exp_neg, Real.exp_log (by positivity)]
    rfl
  fin_cases i <;> fin_cases j <;>
    simp [Kmatrix, M₃, K₃m, hkey]

/-- The dual iterate `v` of the naive solver on the counterexample input. -/
def vAt (t : ℕ) : Fin 2 → ℝ := (sinkhornLoop K₃m r₃ c₃ t).2

/-- The dual iterate `u` computed from `vAt t` in pass `t + 1`. -/
def uAt (t : ℕ) : Fin 2 → ℝ := sinkhornU K₃m r₃ (vAt t)

lemma uAt0 (t : ℕ) : uAt t 0 = (9 / 10) / (vAt t 0 + epsK * vAt t 1) := by
  unfold uAt sinkhornU
  rw [Fin.sum_univ_two]
  norm_num [K₃m, r₃]

lemma uAt1 (t : ℕ) : uAt t 1 = (1 / 10) / (epsK * vAt t 0 + vAt t 1) := by
  unfold uAt sinkhornU
  rw [Fin.sum_univ_two]
  norm_num [K₃m, r₃]

lemma vAt_succ0 (t : ℕ) : vAt (t + 1) 0 = (1 / 2) / (uAt t 0 + epsK * uAt t 1) := by
  have h : vAt (t + 1) = sinkhornV K₃m c₃ (uAt t) := rfl
  rw [h]
  unfold sinkhornV
  rw [Fin.sum_univ_two]
  norm_num [K₃m, c₃]
  congr 1
  ring

lemma vAt_succ1 (t : ℕ) : vAt (t + 1) 1 = (1 / 2) / (epsK * uAt t 0 + uAt t 1) := by
  have h : vAt (t + 1) = sinkhornV K₃m c₃ (uAt t) := rfl
  rw [h]
  unfold sinkhornV
  rw [Fin.sum_univ_two]
  norm_num [K₃m, c₃]
  congr 1
  ring

/-- From `b ≤ T * a`, one `u`-update keeps the duals positive with the
ratio `u0 / u1` bounded by `9 * (epsK + T)`. -/
lemma ratio_step {a b T : ℝ} (ha : 0 < a) (hb : 0 < b) (hba : b ≤ T * a)
    (hT : 1 ≤ T) :
    0 < (9 / 10) / (a + epsK * b) ∧ 0 < (1 / 10) / (epsK * a + b) ∧
    (9 / 10) / (a + epsK * b) ≤ 9 * (epsK + T) * ((1 / 10) / (epsK * a + b)) := by
  have hε := eps_pos
  have hA : 0 < a + epsK * b := by positivity
  have hB : 0 < epsK * a + b := by positivity
  refine ⟨by positivity, by positivity, ?_⟩
  rw [← mul_div_assoc, div_le_div_iff₀ hA hB]
  have h1 : 0 ≤ epsK * (epsK * b) := by positivity
  have h2 : 0 ≤ T * (epsK * b) := by positivity
  nlinarith [mul_nonneg (le_of_lt hε) (sub_nonneg.mpr hba)]

/-- From the ratio bound on the duals, one `v`-update multiplies the
`v1 / v0` ratio by at most `10 * T`. -/
lemma vratio_step {u0 u1 T : ℝ} (hu0 : 0 < u0) (hu1 : 0 < u1) (hT : 1 ≤ T)
    (h9 : u0 ≤ 9 * (epsK + T) * u1) :
    (1 / 2) / (epsK * u0 + u1) ≤ (10 * T) * ((1 / 2) / (u0 + epsK * u1)) := by
  have hε := eps_pos
  have hε' := eps_le
  have hD1 : 0 < epsK * u0 + u1 := by positivity
  have hD2 : 0 < u0 + epsK * u1 := by positivity
  rw [← mul_div_assoc, div_le_div_iff₀ hD1 hD2]
  have h1 : 0 ≤ epsK * u1 := by positivity
  have h2 : 0 ≤ T * (epsK * u0) := by positivity
  nlinarith [mul_nonneg (sub_nonneg.mpr hT) (le_of_lt hu1),
    mul_nonneg (mul_nonneg (by linarith : (0:ℝ) ≤ T) (le_of_lt hε)) (le_of_lt hu0)]

/-- Loop invariant: the dual `v` stays positive, and its component ratio
grows by a factor of at most 10 per pass. -/
lemma vAt_invariant : ∀ t, 0 < vAt t 0 ∧ 0 < vAt t 1 ∧
    vAt t 1 ≤ 10 ^ t * vAt t 0 := by
  intro t
  induction t with
  | zero =>
    refine ⟨one_pos, one_pos, ?_⟩
    show (1 : ℝ) ≤ 10 ^ 0 * 1
    norm_num
  | succ t ih =>
    obtain ⟨ha, hb, hba⟩ := ih
    have hT : (1 : ℝ) ≤ 10 ^ t := by
      have h := pow_le_pow_right₀ (by norm_num : (1 : ℝ) ≤ 10) (Nat.zero_le t)
      simpa using h
    obtain ⟨hu0, hu1, h9⟩ := ratio_step ha hb hba hT
    rw [← uAt0 t] at hu0 h9
    rw [← uAt1 t] at hu1 h9
    refine ⟨?_, ?_, ?_⟩
    · rw [vAt_succ0]
      have hε := eps_pos
      positivity
    · rw [vAt_succ1]
      have hε := eps_pos
      positivity
    · rw [vAt_succ0, vAt_succ1]
      have hmain := vratio_step hu0 hu1 hT h9
      rw [show (10 : ℝ) ^ (t + 1) = 10 * 10 ^ t by rw [pow_succ]; ring]
      exact hmain

/-- Positivity and the ratio bound for the duals entering the last pass. -/
lemma uAt_facts (t : ℕ) : 0 < uAt t 0 ∧ 0 < uAt t 1 ∧
    uAt t 0 ≤ 9 * (epsK + 10 ^ t) * uAt t 1 := by
  obtain ⟨ha, hb, hba⟩ := vAt_invariant t
  have hT : (1 : ℝ) ≤ 10 ^ t := by
    have h := pow_le_pow_right₀ (by norm_num : (1 : ℝ) ≤ 10) (Nat.zero_le t)
    simpa using h
  obtain ⟨h1, h2, h3⟩ := ratio_step ha hb hba hT
  rw [← uAt0 t] at h1 h3
  rw [← uAt1 t] at h2 h3
  exact ⟨h1, h2, h3⟩

/-- C3 counterexample: on the cost matrix `M₃` (symmetric, nonnegative,
zero diagonal) with valid marginals `r₃ = (9/10, 1/10)`,
`c₃ = (1/2, 1/2)`, `regularization = 100` (within the claimed `λ ≤ 100`)
and exactly 40 iterations, `compute_sinkhorn` returns a plan whose first
row sums to at most `1/2 + 9/1000`: it misses `r₃ 0 = 9/10` by more than
the claimed 1e-2 tolerance. -/
theorem sinkhorn_row_tolerance_cex :
    (compute_sinkhorn M₃ (some r₃) (some c₃) 100 40).elim False
      (fun res => 1 / 100 < |(∑ j, res.P 0 j) - r₃ 0|) := by
  have h40 : (40 : ℕ) = 39 + 1 := rfl
  rw [h40, compute_sinkhorn_succ]
  dsimp only [Option.elim]
  have hu : naiveUAt M₃ (some r₃) (some c₃) 100 39 = uAt 39 := by
    unfold naiveUAt uAt vAt
    rw [K₃]
    rfl
  have hv : naiveVAt M₃ (some r₃) (some c₃) 100 39 = vAt 40 := by
    unfold naiveVAt
    rw [K₃, hu]
    rfl
  rw [Fin.sum_univ_two, hu, hv, K₃]
  have e00 : K₃m 0 0 = 1 := rfl
  have e01 : K₃m 0 1 = epsK := rfl
  have er0 : r₃ 0 = 9 / 10 := rfl
  rw [e00, e01, er0, mul_one]
  obtain ⟨hu0, hu1, h9⟩ := uAt_facts 39
  have hv0 : vAt 40 0 = (1 / 2) / (uAt 39 0 + epsK * uAt 39 1) := vAt_succ0 39
  have hv1 : vAt 40 1 = (1 / 2) / (epsK * uAt 39 0 + uAt 39 1) := vAt_succ1 39
  have hε := eps_pos
  have hεle := eps_le
  have hεT := eps_mul_le
  have hD2 : 0 < uAt 39 0 + epsK * uAt 39 1 := by positivity
  have hD1 : 0 < epsK * uAt 39 0 + uAt 39 1 := by positivity
  have hterm1 : uAt 39 0 * vAt 40 0 ≤ 1 / 2 := by
    rw [hv0, ← mul_div_assoc, div_le_iff₀ hD2]
    nlinarith [mul_nonneg (le_of_lt hε) (le_of_lt hu1)]
  have hterm2 : uAt 39 0 * epsK * vAt 40 1 ≤ 9 / 1000 := by
    rw [hv1, ← mul_div_assoc, div_le_iff₀ hD1]
    nlinarith [mul_le_mul_of_nonneg_right h9 (le_of_lt hε),
      mul_le_mul_of_nonneg_right hεT (le_of_lt hu1),
      mul_le_mul_of_nonneg_right hεle (mul_nonneg (le_of_lt hε) (le_of_lt hu1)),
      mul_le_mul_of_nonneg_right hεle (le_of_lt hu1),
      mul_nonneg (mul_nonneg (le_of_lt hε) (le_of_lt hε)) (le_of_lt hu0)]
  have habs : 1 / 100 < 9 / 10 -
      (uAt 39 0 * vAt 40 0 + uAt 39 0 * epsK * vAt 40 1) := by
    linarith
  calc (1 : ℝ) / 100
      < 9 / 10 - (uAt 39 0 * vAt 40 0 + uAt 39 0 * epsK * vAt 40 1) := habs
    _ = -((uAt 39 0 * vAt 40 0 + uAt 39 0 * epsK * vAt 40 1) - 9 / 10) := by
        ring
    _ ≤ |(uAt 39 0 * vAt 40 0 + uAt 39 0 * epsK * vAt 40 1) - 9 / 10| :=
        neg_le_abs _

end

end Wasserstein
